import Mathlib

/-
Verification development for the obsidian-table-checkboxes plugin
(src/settings.ts).  Documents are modelled as lists of characters; every
regular expression of the source is embedded as an executable matcher that
is faithful to the JavaScript regex semantics on the inputs the plugin
feeds it (individual editor lines, which never contain a newline, and the
full document text).
-/

/-- Convert a string literal to the character-list representation used
throughout this development. -/
def str (s : String) : List Char := s.data

/-- The character class matched by the JavaScript regex escape backslash-s. -/
def isJsWs (c : Char) : Bool :=
  c = ' ' || c = '\t' || c = '\n' || c = '\x0b' || c = '\x0c' || c = '\r' ||
  c = ' ' || c = ' ' || (' ' ≤ c && c ≤ ' ') ||
  c = ' ' || c = ' ' || c = ' ' || c = ' ' || c = '　' ||
  c = '﻿'

/-- Boolean test that a list starts with the given pattern. -/
def listStartsWith (s pat : List Char) : Bool :=
  match pat, s with
  | [], _ => true
  | _ :: _, [] => false
  | p :: pr, a :: ar => decide (a = p) && listStartsWith ar pr

/-- Boolean test that the pattern occurs as a contiguous sublist of s.
This embeds the literal-substring search performed by
String.prototype.search in idExistsInFile (the generated identifiers
contain no regex metacharacters, so the regex search is a literal one). -/
def containsSub (s pat : List Char) : Bool :=
  match s with
  | [] => listStartsWith [] pat
  | a :: t => listStartsWith (a :: t) pat || containsSub t pat

/-- JavaScript String.prototype.split on a newline character. -/
def splitNl : List Char → List (List Char)
  | [] => [[]]
  | c :: t =>
    if c = '\n' then [] :: splitNl t
    else
      match splitNl t with
      | [] => [[c]]
      | h :: r => (c :: h) :: r

/-- Inverse of splitNl: join lines with newline characters. -/
def joinNl : List (List Char) → List Char
  | [] => []
  | [l] => l
  | l :: l2 :: r => l ++ '\n' :: joinNl (l2 :: r)

/-- JavaScript String.prototype.slice with a possibly negative start index
and a nonnegative end index (the only shape used by the source). -/
def jsSlice (s : List Char) (a : Int) (b : Nat) : List Char :=
  let start : Nat := if a < 0 then (s.length + a).toNat else min a.toNat s.length
  (s.take (min b s.length)).drop start

/-
Embedding of isMDCheckboxInTable (src/settings.ts lines 133-140).
The regex is  ^(\s|>)*\|.*-\s?(?:\[\s?\]|\[).*  tested against a single
editor line (which contains no newline character, so the m flag and the
newline exclusion of the dot are immaterial).  The regex matches exactly
when the line consists of whitespace and blockquote markers, then a pipe,
with a dash-bracket marker occurring somewhere after the pipe.
-/

/-- Character class for the leading (\s|>)* part of the table regex. -/
def isWsGt (c : Char) : Bool := isJsWs c || c = '>'

/-- Drop the maximal leading run of whitespace and blockquote characters. -/
def dropWsGt : List Char → List Char
  | [] => []
  | c :: t => if isWsGt c then dropWsGt t else c :: t

/-- Does a dash-bracket checkbox marker -\s?\[ start at the head of s? -/
def startsMarker (s : List Char) : Bool :=
  match s with
  | '-' :: '[' :: _ => true
  | '-' :: c :: '[' :: _ => isJsWs c
  | _ => false

/-- Does a dash-bracket checkbox marker occur anywhere in s? -/
def hasDashBracket : List Char → Bool
  | [] => false
  | a :: t => startsMarker (a :: t) || hasDashBracket t

/-- Embedding of isMDCheckboxInTable: the line is a table-context checkbox
line when, after leading whitespace and blockquote markers, a pipe occurs
and a dash-bracket marker occurs after that pipe. -/
def isMDCheckboxInTable (line : List Char) : Bool :=
  match dropWsGt line with
  | c :: rest => decide (c = '|') && hasDashBracket rest
  | [] => false

/- Basic lemmas about the helpers. -/

theorem listStartsWith_eq_decide (s pat : List Char) :
    listStartsWith s pat = decide (s.take pat.length = pat) := by
  induction pat generalizing s with
  | nil => simp [listStartsWith]
  | cons p pr ih =>
    cases s with
    | nil => simp [listStartsWith]
    | cons a ar =>
      simp only [listStartsWith, ih, List.take, List.cons.injEq]
      by_cases h : a = p <;> simp [h]

theorem dropWsGt_append_of_all (p rest : List Char)
    (hp : ∀ c ∈ p, isWsGt c = true) :
    dropWsGt (p ++ rest) = dropWsGt rest := by
  induction p with
  | nil => rfl
  | cons c t ih =>
    have hc : isWsGt c = true := hp c (List.mem_cons_self c t)
    simp [dropWsGt, hc]
    exact ih (fun d hd => hp d (List.mem_cons_of_mem c hd))

theorem dropWsGt_sub (line : List Char) :
    ∃ p, line = p ++ dropWsGt line ∧ ∀ c ∈ p, isWsGt c = true := by
  induction line with
  | nil => exact ⟨[], rfl, by simp⟩
  | cons c t ih =>
    by_cases hc : isWsGt c = true
    · obtain ⟨p, hp, hall⟩ := ih
      refine ⟨c :: p, by simp [dropWsGt, hc, ← hp], ?_⟩
      intro d hd
      rcases List.mem_cons.mp hd with h | h
      · exact h ▸ hc
      · exact hall d h
    · refine ⟨[], by simp [dropWsGt, hc], by simp⟩

/-- CLAIM C5 (table-context classification).  First part: every line made
of optional whitespace and blockquote markers, then a pipe, with a
dash-bracket checkbox marker somewhere after the pipe, is classified as a
table checkbox line.  Second part: any line in which no pipe character
has a dash-bracket marker after it is classified as not in a table. -/
theorem isMDCheckboxInTable_spec (line : List Char) :
    (∀ p rest, (∀ c ∈ p, isWsGt c = true) → hasDashBracket rest = true →
      line = p ++ '|' :: rest → isMDCheckboxInTable line = true) ∧
    ((¬ ∃ p rest, line = p ++ '|' :: rest ∧ hasDashBracket rest = true) →
      isMDCheckboxInTable line = false) := by
  constructor
  · intro p rest hp hm hline
    subst hline
    have : dropWsGt (p ++ '|' :: rest) = '|' :: rest := by
      rw [dropWsGt_append_of_all p _ hp]
      simp [dropWsGt, isWsGt, isJsWs]
    simp [isMDCheckboxInTable, this, hm]
  · intro hno
    by_contra h
    have htrue : isMDCheckboxInTable line = true := by
      cases hb : isMDCheckboxInTable line
      · exact absurd hb h
      · rfl
    unfold isMDCheckboxInTable at htrue
    obtain ⟨p, hline, hall⟩ := dropWsGt_sub line
    cases hd : dropWsGt line with
    | nil => rw [hd] at htrue; simp at htrue
    | cons c rest =>
      rw [hd] at htrue
      simp only [Bool.and_eq_true, decide_eq_true_eq] at htrue
      obtain ⟨hc, hm⟩ := htrue
      subst hc
      exact hno ⟨p, rest, by rw [hline, hd], hm⟩

/-- CLAIM C5 witness: the two directions applied at concrete lines. -/
theorem isMDCheckboxInTable_spec_witness :
    isMDCheckboxInTable (str "| - [ ]") = true ∧
    isMDCheckboxInTable (str "- [ ]") = false := by
  constructor
  · exact (isMDCheckboxInTable_spec (str "| - [ ]")).1 [] (str " - [ ]")
      (by intro c hc; simp at hc) (by decide) (by decide)
  · refine (isMDCheckboxInTable_spec (str "- [ ]")).2 ?_
    rintro ⟨p, rest, heq, -⟩
    have hmem : '|' ∈ str "- [ ]" := by
      rw [heq]; exact List.mem_append_right p (List.mem_cons_self _ _)
    exact absurd hmem (by decide)

/-
Embedding of closingBracketIsTooFar (src/settings.ts lines 143-148).
In JavaScript an out-of-range or negative index yields undefined, which is
never the opening bracket, hence the explicit bounds guards.
-/

/-- The trigger-position guard: the conversion may fire only when the
character one or two positions before the cursor is an opening bracket. -/
def closingBracketIsTooFar (row : List Char) (ch : Nat) : Bool :=
  if (decide (1 ≤ ch) && (row[ch-1]? == some '[')) ||
     (decide (2 ≤ ch) && (row[ch-2]? == some '[')) then false else true

/-
Embedding of getCheckboxLength (src/settings.ts lines 151-161).
The regex is  -\s{0,1}\[\s{0,1}\]?  matched against the window
viewData.slice(ch-4, complete ? ch+1 : ch), where complete means the
character at the cursor position is a closing bracket.  The embedded
matcher reproduces the leftmost-greedy JavaScript semantics.
-/

/-- Greedy match of the tail pattern \s{0,1}\]? after the opening bracket. -/
def afterBracket (s : List Char) : List Char :=
  match s with
  | ']' :: _ => [']']
  | c :: rest =>
    if isJsWs c then
      match rest with
      | ']' :: _ => [c, ']']
      | _ => [c]
    else []
  | [] => []

/-- Greedy match of -\s{0,1}\[\s{0,1}\]? anchored at the head of s. -/
def matchAt (s : List Char) : Option (List Char) :=
  match s with
  | '-' :: rest =>
    match rest with
    | '[' :: rest2 => some ('-' :: '[' :: afterBracket rest2)
    | c :: more =>
      match more with
      | '[' :: rest2 =>
        if isJsWs c then some ('-' :: c :: '[' :: afterBracket rest2) else none
      | _ => none
    | [] => none
  | _ => none

/-- Leftmost match of the single-conversion checkbox regex. -/
def firstMatch : List Char → Option (List Char)
  | [] => none
  | a :: t =>
    match matchAt (a :: t) with
    | some m => some m
    | none => firstMatch t

/-- Does the character at the cursor position equal a closing bracket?
This is the completeCheckbox test of getCheckboxLength. -/
def completeAt (v : List Char) (ch : Nat) : Bool := v[ch]? == some ']'

/-- The window of text examined by getCheckboxLength. -/
def checkWindow (v : List Char) (ch : Nat) : List Char :=
  jsSlice v ((ch : Int) - 4) (if completeAt v ch then ch + 1 else ch)

/-- Embedding of getCheckboxLength: the matched checkbox text, if any. -/
def getCheckboxLength (v : List Char) (ch : Nat) : Option (List Char) :=
  firstMatch (checkWindow v ch)

/-- CLAIM C2 counterexample: on the line "| a | - [ ] |" with the trigger
position at index 11, the index just after the closing bracket, the window
is " [ ]" and contains no dash, so span extraction returns no match at
all rather than the five character token. -/
theorem getCheckboxLength_just_after_bracket :
    getCheckboxLength (str "| a | - [ ] |") 11 = none := by decide

/-- CLAIM C2 amended: with the trigger position at index 10, the position
of the closing bracket itself (where the editor places the cursor in the
auto-insertion quirk the window accounts for), span extraction returns
exactly the five character token "- [ ]", which is complete. -/
theorem getCheckboxLength_at_bracket :
    getCheckboxLength (str "| a | - [ ] |") 10 = some (str "- [ ]") ∧
    (str "- [ ]").length = 5 ∧
    (str "- [ ]").getLast? = some ']' ∧
    completeAt (str "| a | - [ ] |") 10 = true := by decide

/-
Embedding of handleCheckboxReplacement (src/settings.ts lines 110-118).
The code advances the cursor column by one when the matched checkbox ends
with a closing bracket, then selects the span of the checkbox length that
ends at the (possibly advanced) column and replaces it.  The functions
below compute, on the line, the advanced column, the text the selection
removes, and the resulting line.
-/

/-- The end column of the replaced span: advanced by one exactly when the
matched checkbox text ends with a closing bracket. -/
def advancedCh (checkbox : List Char) (ch : Nat) : Nat :=
  if checkbox.getLast? = some ']' then ch + 1 else ch

/-- The text removed from the line by the replacement selection. -/
def removedText (line : List Char) (ch : Nat) (checkbox : List Char) : List Char :=
  (line.take (advancedCh checkbox ch)).drop (advancedCh checkbox ch - checkbox.length)

/-- The line after handleCheckboxReplacement substitutes the selection. -/
def handleCheckboxReplacement (line : List Char) (ch : Nat)
    (checkbox repl : List Char) : List Char :=
  line.take (advancedCh checkbox ch - checkbox.length) ++ repl ++
    line.drop (advancedCh checkbox ch)

/-- CLAIM C3 counterexample: on the line "|- [[]" with the trigger at
column 5 every check passes (table context, trigger position, pattern
match), the matcher returns the token "- [", yet the span the replacement
removes is " [[" - not the matched token.  The code assumes the match ends
at the cursor end of the window, which fails here. -/
theorem handleCheckboxReplacement_wrong_span :
    isMDCheckboxInTable (str "|- [[]") = true ∧
    closingBracketIsTooFar (str "|- [[]") 5 = false ∧
    getCheckboxLength (str "|- [[]") 5 = some (str "- [") ∧
    removedText (str "|- [[]") 5 (str "- [") = str " [[" ∧
    str " [[" ≠ str "- [" := by decide

theorem drop_take_suffix_eq (ln cb : List Char) (s e : Nat)
    (hse : s ≤ e) (hel : e ≤ ln.length)
    (hsfx : cb <:+ (ln.take e).drop s) :
    (ln.take e).drop (e - cb.length) = cb := by
  obtain ⟨w1, hw⟩ := hsfx
  have hlen : (ln.take e).length = e := by rw [List.length_take]; omega
  have hwlen : w1.length + cb.length = e - s := by
    have hlw := congrArg List.length hw
    simp only [List.length_append, List.length_drop, hlen] at hlw
    omega
  have h1 : e - cb.length = s + ((e - cb.length) - s) := by omega
  rw [h1, ← List.drop_drop, ← hw]
  have h2 : (e - cb.length) - s = w1.length := by omega
  rw [h2, List.drop_left]

/-- CLAIM C3 amended: when the three single-conversion checks pass, the
end boundary of the replaced span is advanced by one exactly when the
matched token is complete (ends with a closing bracket); and whenever the
match ends at the cursor end of the examined window (the matched text is a
suffix of the window) and the completeness of the token agrees with the
completeness test at the trigger position, the text removed by the
replacement equals the matched token exactly. -/
theorem handleCheckboxReplacement_exact_span (ln cb : List Char) (ch : Nat)
    (htab : isMDCheckboxInTable ln = true)
    (htrig : closingBracketIsTooFar ln ch = false)
    (hcb : getCheckboxLength ln ch = some cb)
    (hch4 : 4 ≤ ch) (hchlen : ch ≤ ln.length)
    (hsfx : cb <:+ checkWindow ln ch)
    (hagree : (cb.getLast? = some ']') ↔ completeAt ln ch = true) :
    removedText ln ch cb = cb ∧
    advancedCh cb ch = (if completeAt ln ch = true then ch + 1 else ch) := by
  have hstart : ¬ ((ch : Int) - 4 < 0) := by omega
  have htonat : ((ch : Int) - 4).toNat = ch - 4 := by omega
  by_cases hc : completeAt ln ch = true
  · have hsome : ln[ch]? = some ']' := by
      have := hc
      unfold completeAt at this
      exact beq_iff_eq.mp this
    have hlt : ch < ln.length := by
      by_contra hge
      rw [List.getElem?_eq_none (by omega)] at hsome
      exact Option.noConfusion hsome
    have hlast : cb.getLast? = some ']' := hagree.mpr hc
    have hadv : advancedCh cb ch = ch + 1 := by simp [advancedCh, hlast]
    have hwin : checkWindow ln ch = (ln.take (ch + 1)).drop (ch - 4) := by
      simp only [checkWindow, jsSlice, hc, if_true, hstart, if_false, htonat]
      have hmin1 : min (ch + 1) ln.length = ch + 1 := by omega
      have hmin2 : min (ch - 4) ln.length = ch - 4 := by omega
      simp [hmin1, hmin2, htonat, hstart]
    rw [hwin] at hsfx
    refine ⟨?_, by simp [hadv, hc]⟩
    unfold removedText
    rw [hadv]
    exact drop_take_suffix_eq ln cb (ch - 4) (ch + 1) (by omega) (by omega) hsfx
  · have hlast : cb.getLast? ≠ some ']' := fun hl => hc (hagree.mp hl)
    have hadv : advancedCh cb ch = ch := by simp [advancedCh, hlast]
    have hwin : checkWindow ln ch = (ln.take ch).drop (ch - 4) := by
      simp only [checkWindow, jsSlice, hc, if_false, hstart, htonat]
      have hmin1 : min ch ln.length = ch := by omega
      have hmin2 : min (ch - 4) ln.length = ch - 4 := by omega
      simp [hmin1, hmin2, htonat, hstart, hc]
    rw [hwin] at hsfx
    refine ⟨?_, by simp [hadv, hc]⟩
    unfold removedText
    rw [hadv]
    exact drop_take_suffix_eq ln cb (ch - 4) ch (by omega) (by omega) hsfx

/-- CLAIM C3 witness: the amended theorem applied on the line
"| a | - [ ] |" at column 10, where the token "- [ ]" is removed exactly
and the end boundary advances to 11. -/
theorem handleCheckboxReplacement_exact_span_witness :
    removedText (str "| a | - [ ] |") 10 (str "- [ ]") = str "- [ ]" ∧
    advancedCh (str "- [ ]") 10 =
      (if completeAt (str "| a | - [ ] |") 10 = true then 10 + 1 else 10) :=
  handleCheckboxReplacement_exact_span (str "| a | - [ ] |") (str "- [ ]") 10
    (by decide) (by decide) (by decide) (by decide) (by decide) (by decide)
    (by decide)

/-
Embedding of generateUniqueCheckboxId and idExistsInFile
(src/settings.ts lines 120-131).  The random source is abstracted as a
stream of candidate identifiers: index 0 plays the initial six character
slice of a random uuid and later indices the full uuids used on
regeneration.  The loop is given explicit fuel; termination for a random
source that eventually produces a fresh candidate is proved below.
-/

/-- Embedding of idExistsInFile: a literal substring search of the
candidate identifier in the document text. -/
def idExistsInFile (id page : List Char) : Bool := containsSub page id

/-- The regeneration loop of generateUniqueCheckboxId, with fuel. -/
def genLoop (page : List Char) (randoms : Nat → List Char) : Nat → Nat → Option (List Char)
  | _, 0 => none
  | n, fuel + 1 =>
    if idExistsInFile (randoms n) page then genLoop page randoms (n + 1) fuel
    else some (randoms n)

/-- Embedding of generateUniqueCheckboxId: run the loop from the first
candidate. -/
def generateUniqueCheckboxId (page : List Char) (randoms : Nat → List Char)
    (fuel : Nat) : Option (List Char) :=
  genLoop page randoms 0 fuel

theorem genLoop_reaches (page : List Char) (randoms : Nat → List Char) :
    ∀ (m n : Nat), idExistsInFile (randoms (n + m)) page = false →
      ∃ fuel id, genLoop page randoms n fuel = some id ∧
        idExistsInFile id page = false := by
  intro m
  induction m with
  | zero =>
    intro n h
    refine ⟨1, randoms n, ?_, by simpa using h⟩
    simp only [genLoop]
    rw [show n + 0 = n from rfl] at h
    simp [h]
  | succ m ih =>
    intro n h
    by_cases hn : idExistsInFile (randoms n) page = true
    · obtain ⟨fuel, id, hrun, hfree⟩ := ih (n + 1) (by
        rw [show n + 1 + m = n + (m + 1) from by omega]; exact h)
      exact ⟨fuel + 1, id, by simp [genLoop, hn, hrun], hfree⟩
    · have hn2 : idExistsInFile (randoms n) page = false := by
        cases hx : idExistsInFile (randoms n) page
        · rfl
        · exact absurd hx hn
      exact ⟨1, randoms n, by simp [genLoop, hn2], hn2⟩

/-- CLAIM C6: for every document and every random source that eventually
yields a candidate that does not occur in the document, the generator
terminates (some fuel suffices) and returns an identifier that does not
occur as a literal substring of the document text. -/
theorem generateUniqueCheckboxId_fresh (page : List Char)
    (randoms : Nat → List Char)
    (h : ∃ n, idExistsInFile (randoms n) page = false) :
    ∃ fuel id, generateUniqueCheckboxId page randoms fuel = some id ∧
      idExistsInFile id page = false := by
  obtain ⟨n, hn⟩ := h
  exact genLoop_reaches page randoms n 0 (by simpa using hn)

/-- CLAIM C6 witness: a random source whose first candidate collides with
the document and whose second candidate is fresh. -/
theorem generateUniqueCheckboxId_fresh_witness :
    (∃ n, idExistsInFile ((fun k => if k = 0 then str "abc" else str "zzz") n)
      (str "abcdef") = false) ∧
    (∃ fuel id, generateUniqueCheckboxId (str "abcdef")
      (fun k => if k = 0 then str "abc" else str "zzz") fuel = some id ∧
      idExistsInFile id (str "abcdef") = false) :=
  ⟨⟨1, by decide⟩,
    generateUniqueCheckboxId_fresh (str "abcdef")
      (fun k => if k = 0 then str "abc" else str "zzz") ⟨1, by decide⟩⟩

/-
Embedding of the identifier generation of convertCheckboxes
(src/settings.ts line 217): one generator call per recorded span, every
call checked against the same document content, because all identifiers
are generated before any replacement is written.  The random source takes
the call index and the attempt index.
-/

/-- The batch of identifiers issued by convertCheckboxes before any
replacement is written: each call sees the unchanged document text. -/
def batchIds (page : List Char) (randoms : Nat → Nat → List Char)
    (fuel n : Nat) : List (Option (List Char)) :=
  (List.range n).map (fun k => genLoop page (randoms k) 0 fuel)

/-- CLAIM C1 (code bug): a batch of two conversions with a random source
that returns the same fresh candidate on both calls issues the same
identifier twice - the generated identifiers are not pairwise distinct,
because the uniqueness check only consults the document text, which does
not yet contain the identifiers issued earlier in the batch.  The second
conjunct shows the candidate is fresh for the document, so the claimed
freedom from in-document collision holds while pairwise distinctness
fails. -/
theorem batchIds_duplicate :
    idExistsInFile (str "zzzzzz") (str "| - [ ]\n| - [ ]") = false ∧
    batchIds (str "| - [ ]\n| - [ ]") (fun _ _ => str "zzzzzz") 1 2 =
      [some (str "zzzzzz"), some (str "zzzzzz")] := by decide

/-
Embedding of toggleCheckbox (src/settings.ts lines 163-166).  The regex
is  <input type="checkbox" (un)?checked id="ID">  applied with
String.prototype.replace, which rewrites the leftmost match only.  At any
given position at most one of the two literal alternatives can match, so
the regex is embedded as a first-match replacement over the two literal
patterns.  The replacement text is the same control literal with the new
state, and vault.modify is invoked unconditionally with the result, which
the write list below records.
-/

/-- The rendered control literal, checked or unchecked, with an id. -/
def ctrlPat (checked : Bool) (id : List Char) : List Char :=
  str "<input type=\"checkbox\" " ++
    ((if checked then [] else str "un") ++
      (str "checked id=\"" ++ (id ++ str "\">")))

/-- Replace the leftmost occurrence of either pattern with repl. -/
def replaceFirstTwo (pat1 pat2 repl : List Char) : List Char → List Char
  | [] => []
  | a :: t =>
    if listStartsWith (a :: t) pat1 then repl ++ (a :: t).drop pat1.length
    else if listStartsWith (a :: t) pat2 then repl ++ (a :: t).drop pat2.length
    else a :: replaceFirstTwo pat1 pat2 repl t

/-- Embedding of toggleCheckbox: rewrite the first rendered control
carrying the identifier, in either state, to the new state. -/
def toggleCheckbox (page : List Char) (isChecked : Bool) (id : List Char) :
    List Char :=
  replaceFirstTwo (ctrlPat false id) (ctrlPat true id) (ctrlPat isChecked id) page

/-- The file writes performed by toggleCheckbox: exactly one call to
vault.modify, with the (possibly unchanged) replaced text. -/
def toggleCheckboxWrites (page : List Char) (isChecked : Bool)
    (id : List Char) : List (List Char) :=
  [toggleCheckbox page isChecked id]

theorem listStartsWith_self_app (x y : List Char) :
    listStartsWith (x ++ y) x = true := by
  rw [listStartsWith_eq_decide]
  simp [List.take_left]

theorem listStartsWith_append_same (x s p : List Char) :
    listStartsWith (x ++ s) (x ++ p) = listStartsWith s p := by
  induction x with
  | nil => rfl
  | cons a t ih => simp [listStartsWith, ih]

theorem listStartsWith_cons_ne (a p : Char) (s pat : List Char) (h : a ≠ p) :
    listStartsWith (a :: s) (p :: pat) = false := by
  simp [listStartsWith, h]

theorem not_startsWith_unchecked (id suf : List Char) :
    listStartsWith (ctrlPat true id ++ suf) (ctrlPat false id) = false := by
  unfold ctrlPat
  simp only [if_true, if_false, List.nil_append, List.append_assoc]
  rw [listStartsWith_append_same]
  have h1 : str "checked id=\"" = 'c' :: str "hecked id=\"" := rfl
  have h2 : str "un" = 'u' :: str "n" := rfl
  rw [h1, h2]
  simp only [List.cons_append]
  exact listStartsWith_cons_ne 'c' 'u' _ _ (by decide)

theorem replaceFirstTwo_skip (pat1 pat2 repl pre rest : List Char)
    (h : ∀ i, i < pre.length →
      listStartsWith ((pre ++ rest).drop i) pat1 = false ∧
      listStartsWith ((pre ++ rest).drop i) pat2 = false) :
    replaceFirstTwo pat1 pat2 repl (pre ++ rest) =
      pre ++ replaceFirstTwo pat1 pat2 repl rest := by
  induction pre with
  | nil => rfl
  | cons a t ih =>
    have h0 := h 0 (by simp)
    simp only [List.cons_append, List.drop_zero] at h0
    show replaceFirstTwo pat1 pat2 repl (a :: (t ++ rest)) = _
    simp only [replaceFirstTwo, h0.1, h0.2, if_false, Bool.false_eq_true]
    rw [ih (fun i hi => by
      have hs := h (i + 1) (by simp; omega)
      simpa [List.cons_append] using hs)]
    simp

theorem replaceFirstTwo_nomatch (pat1 pat2 repl s : List Char)
    (h1 : ∀ i, listStartsWith (s.drop i) pat1 = false)
    (h2 : ∀ i, listStartsWith (s.drop i) pat2 = false) :
    replaceFirstTwo pat1 pat2 repl s = s := by
  induction s with
  | nil => rfl
  | cons a t ih =>
    have h10 := h1 0
    have h20 := h2 0
    simp only [List.drop_zero] at h10 h20
    simp only [replaceFirstTwo, h10, h20, if_false, Bool.false_eq_true]
    rw [ih (fun i => by simpa using h1 (i + 1)) (fun i => by simpa using h2 (i + 1))]

theorem containsSub_false_all (s pat : List Char)
    (h : containsSub s pat = false) :
    ∀ i, listStartsWith (s.drop i) pat = false := by
  induction s with
  | nil =>
    intro i
    cases i <;> simpa [containsSub] using h
  | cons a t ih =>
    intro i
    unfold containsSub at h
    rw [Bool.or_eq_false_iff] at h
    cases i with
    | zero => simpa using h.1
    | succ j => simpa using ih h.2 j

theorem ctrlPat_append_ne_nil (b : Bool) (id suf : List Char) :
    ∃ a t, ctrlPat b id ++ suf = a :: t := by
  cases b <;> exact ⟨'<', _, rfl⟩

/-- CLAIM C7: if the document decomposes as pre ++ control ++ suf where
the control carries the given identifier and no occurrence of either
rendered-control pattern with that identifier starts inside pre (the
control shown is the first occurrence), then toggling rewrites exactly
that control to the new state and every other character of the document,
including any control with a different identifier inside pre or suf, is
unchanged byte for byte. -/
theorem toggleCheckbox_first_occurrence (pre suf id : List Char) (b c : Bool)
    (h : ∀ i, i < pre.length →
      listStartsWith ((pre ++ (ctrlPat b id ++ suf)).drop i) (ctrlPat false id) = false ∧
      listStartsWith ((pre ++ (ctrlPat b id ++ suf)).drop i) (ctrlPat true id) = false) :
    toggleCheckbox (pre ++ (ctrlPat b id ++ suf)) c id =
      pre ++ (ctrlPat c id ++ suf) := by
  unfold toggleCheckbox
  rw [replaceFirstTwo_skip _ _ _ pre _ h]
  congr 1
  cases b with
  | false =>
    obtain ⟨a, t, hat⟩ := ctrlPat_append_ne_nil false id suf
    rw [hat]
    have hsw : listStartsWith (a :: t) (ctrlPat false id) = true := by
      rw [← hat]; exact listStartsWith_self_app _ _
    simp only [replaceFirstTwo, hsw, if_true]
    rw [← hat, List.drop_left]
  | true =>
    obtain ⟨a, t, hat⟩ := ctrlPat_append_ne_nil true id suf
    rw [hat]
    have hsw1 : listStartsWith (a :: t) (ctrlPat false id) = false := by
      rw [← hat]; exact not_startsWith_unchecked id suf
    have hsw2 : listStartsWith (a :: t) (ctrlPat true id) = true := by
      rw [← hat]; exact listStartsWith_self_app _ _
    simp only [replaceFirstTwo, hsw1, hsw2, if_true, if_false, Bool.false_eq_true]
    rw [← hat, List.drop_left]

/-- CLAIM C7 witness: a document with two controls, identifiers abc123
and def456; toggling abc123 to checked rewrites only the first control
and leaves the def456 control byte for byte unchanged. -/
theorem toggleCheckbox_first_occurrence_witness :
    toggleCheckbox
      (str "x " ++ (ctrlPat false (str "abc123") ++
        (str " y " ++ ctrlPat false (str "def456")))) true (str "abc123") =
      str "x " ++ (ctrlPat true (str "abc123") ++
        (str " y " ++ ctrlPat false (str "def456"))) :=
  toggleCheckbox_first_occurrence (str "x ")
    (str " y " ++ ctrlPat false (str "def456")) (str "abc123") false true
    (by decide)

/-- CLAIM C8 counterexample: when the document contains no rendered
control with the identifier, toggleCheckbox still performs exactly one
write to persistent storage - vault.modify is invoked unconditionally -
so the claim that nothing is written fails, although the written text
equals the original document. -/
theorem toggleCheckbox_writes_without_match :
    containsSub (str "hello") (ctrlPat false (str "abc")) = false ∧
    containsSub (str "hello") (ctrlPat true (str "abc")) = false ∧
    toggleCheckboxWrites (str "hello") true (str "abc") = [str "hello"] ∧
    toggleCheckboxWrites (str "hello") true (str "abc") ≠ [] := by decide

/-- CLAIM C8 amended: if the document contains no rendered-control
pattern carrying the identifier, the single write performed by toggle
synchronization carries text identical to the document that was read, so
the persisted document text is unchanged (though a write does occur). -/
theorem toggleCheckbox_no_match (page id : List Char) (c : Bool)
    (h1 : containsSub page (ctrlPat false id) = false)
    (h2 : containsSub page (ctrlPat true id) = false) :
    toggleCheckboxWrites page c id = [page] := by
  unfold toggleCheckboxWrites toggleCheckbox
  rw [replaceFirstTwo_nomatch _ _ _ page
    (containsSub_false_all _ _ h1) (containsSub_false_all _ _ h2)]

/-- CLAIM C8 witness: the amended no-match theorem applied to a concrete
document without the identifier. -/
theorem toggleCheckbox_no_match_witness :
    toggleCheckboxWrites (str "some text") false (str "xyz") = [str "some text"] :=
  toggleCheckbox_no_match (str "some text") (str "xyz") false
    (by decide) (by decide)

/-
Embedding of the bulk conversion (src/settings.ts lines 168-230).
getCheckboxesToConvert splits the document into lines, skips a line when
the policy flag is off and the line is not a table-context checkbox line,
and records a span for every match of the global regex -\s{0,1}\[\s{0,1}\]
(closing bracket mandatory), scanning left to right and resuming after
each match.  convertCheckboxes then replaces every recorded span with the
placeholder literal simultaneously and substitutes the placeholders, in
recorded order, with rendered unchecked controls carrying the batch
identifiers.
-/

/-- Greedy match of the closing part \s{0,1}\] of the bulk regex. -/
def bracketClose (s : List Char) : Option Nat :=
  match s with
  | [] => none
  | c :: rest =>
    if c = ']' then some 1
    else if isJsWs c then
      match rest with
      | [] => none
      | d :: _ => if d = ']' then some 2 else none
    else none

/-- Greedy match of the bulk regex -\s{0,1}\[\s{0,1}\] anchored at the
head of s, returning the match length. -/
def bulkMatchLen (s : List Char) : Option Nat :=
  match s with
  | a :: b :: rest =>
    if a = '-' then
      if b = '[' then (bracketClose rest).map (fun n => 2 + n)
      else if isJsWs b then
        match rest with
        | [] => none
        | c :: rest2 =>
          if c = '[' then (bracketClose rest2).map (fun n => 3 + n) else none
      else none
    else none
  | _ => none

/-- The successive non-overlapping matches of the global bulk regex on a
line: pairs of start index and length, scanning from the left and
resuming after each match, with fuel. -/
def lineMatchesGo (fuel : Nat) (s : List Char) (i : Nat) : List (Nat × Nat) :=
  match fuel, s with
  | 0, _ => []
  | _ + 1, [] => []
  | fuel + 1, a :: t =>
    match bulkMatchLen (a :: t) with
    | some len => (i, len) :: lineMatchesGo fuel ((a :: t).drop len) (i + len)
    | none => lineMatchesGo fuel t (i + 1)

/-- All bulk-regex matches of a line. -/
def lineMatches (l : List Char) : List (Nat × Nat) := lineMatchesGo l.length l 0

/-- A line and character position in the document, as used by the editor. -/
structure EditorPosition where
  line : Nat
  ch : Nat
deriving DecidableEq

/-- The loop of getCheckboxesToConvert over the lines, carrying the
running line counter exactly as the source does. -/
def getCheckboxesGo : List (List Char) → Bool → Nat →
    List (EditorPosition × EditorPosition)
  | [], _, _ => []
  | l :: rest, flag, lineCount =>
    if !flag && !isMDCheckboxInTable l then
      getCheckboxesGo rest flag (lineCount + 1)
    else
      ((lineMatches l).map (fun m =>
        (EditorPosition.mk lineCount m.1, EditorPosition.mk lineCount (m.1 + m.2)))) ++
        getCheckboxesGo rest flag (lineCount + 1)

/-- Embedding of getCheckboxesToConvert. -/
def getCheckboxesToConvert (page : List Char) (flag : Bool) :
    List (EditorPosition × EditorPosition) :=
  getCheckboxesGo (splitNl page) flag 0

/-- Simultaneous replacement of every bulk-regex match of a line by a
fixed replacement text: the effect of the multi-selection replacement the
editor performs on one line for the recorded spans of that line. -/
def replaceMatchesGo (repl : List Char) (fuel : Nat) (s : List Char) : List Char :=
  match fuel, s with
  | 0, s => s
  | _ + 1, [] => []
  | fuel + 1, a :: t =>
    match bulkMatchLen (a :: t) with
    | some len => repl ++ replaceMatchesGo repl fuel ((a :: t).drop len)
    | none => a :: replaceMatchesGo repl fuel t

/-- Replace every bulk-regex match of a line. -/
def replaceMatches (l repl : List Char) : List Char :=
  replaceMatchesGo repl l.length l

/-- The placeholder literal convertCheckboxes writes into every recorded
span before substituting the rendered controls. -/
def placeholderP : List Char := str "!!PLACEHOLDER_TO_BE_REPLACED_WITH_CHECKBOX!!"

/-- The core of the placeholder literal, without the bracketing
exclamation marks. -/
def placeholderCore : List Char := str "PLACEHOLDER_TO_BE_REPLACED_WITH_CHECKBOX"

/-- Replace the leftmost occurrence of pat with repl (the non-global
String.prototype.replace of the placeholder substitution loop). -/
def replaceFirst (pat repl : List Char) : List Char → List Char
  | [] => []
  | a :: t =>
    if listStartsWith (a :: t) pat then repl ++ (a :: t).drop pat.length
    else a :: replaceFirst pat repl t

/-- Phase one of convertCheckboxes on one line: table-context filtering
followed by simultaneous placeholder substitution of the recorded spans
of that line (a skipped line has no recorded spans and stays unchanged). -/
def lineConverted (flag : Bool) (l : List Char) : List Char :=
  if !flag && !isMDCheckboxInTable l then l else replaceMatches l placeholderP

/-- Phase two of convertCheckboxes: substitute the first placeholder
occurrence by the rendered control of each batch identifier in turn. -/
def convertPhase2 (page1 : List Char) (ids : List (List Char)) : List Char :=
  ids.foldl (fun pg id => replaceFirst placeholderP (ctrlPat false id) pg) page1

/-- Embedding of convertCheckboxes at document level, parameterised by
the batch identifiers. -/
def convertCheckboxes (page : List Char) (flag : Bool)
    (ids : List (List Char)) : List Char :=
  convertPhase2 (joinNl ((splitNl page).map (lineConverted flag))) ids

/- Reconstruction lemmas for splitNl and joinNl. -/

theorem splitNl_ne_nil (s : List Char) : splitNl s ≠ [] := by
  cases s with
  | nil => simp [splitNl]
  | cons c t =>
    by_cases hc : c = '\n'
    · simp [splitNl, hc]
    · simp only [splitNl, hc, if_false]
      cases splitNl t <;> simp

theorem joinNl_splitNl (s : List Char) : joinNl (splitNl s) = s := by
  induction s with
  | nil => rfl
  | cons c t ih =>
    by_cases hc : c = '\n'
    · subst hc
      simp only [splitNl, if_true]
      obtain ⟨h, r, hr⟩ : ∃ h r, splitNl t = h :: r := by
        cases hx : splitNl t with
        | nil => exact absurd hx (splitNl_ne_nil t)
        | cons h r => exact ⟨h, r, rfl⟩
      rw [hr]
      show [] ++ '\n' :: joinNl (h :: r) = '\n' :: t
      rw [← hr, ih]
      rfl
    · simp only [splitNl, hc, if_false]
      obtain ⟨h, r, hr⟩ : ∃ h r, splitNl t = h :: r := by
        cases hx : splitNl t with
        | nil => exact absurd hx (splitNl_ne_nil t)
        | cons h r => exact ⟨h, r, rfl⟩
      rw [hr]
      rw [hr] at ih
      cases r with
      | nil =>
        show c :: h = c :: t
        rw [show joinNl [h] = h from rfl] at ih
        rw [ih]
      | cons h2 r2 =>
        show (c :: h) ++ '\n' :: joinNl (h2 :: r2) = c :: t
        rw [show joinNl (h :: h2 :: r2) = h ++ '\n' :: joinNl (h2 :: r2) from rfl] at ih
        simp only [List.cons_append, ih]

/- CLAIM C4: idempotence of bulk conversion. -/

theorem replaceMatchesGo_id_of_no_match (repl : List Char) :
    ∀ (fuel : Nat) (s : List Char) (i : Nat),
      lineMatchesGo fuel s i = [] → replaceMatchesGo repl fuel s = s := by
  intro fuel
  induction fuel with
  | zero => intro s i _; rfl
  | succ fuel ih =>
    intro s i h
    cases s with
    | nil => rfl
    | cons a t =>
      simp only [lineMatchesGo] at h
      cases hb : bulkMatchLen (a :: t) with
      | some len => rw [hb] at h; exact absurd h (by simp)
      | none =>
        rw [hb] at h
        simp only [replaceMatchesGo, hb]
        rw [ih t (i + 1) h]

theorem getCheckboxesGo_nil_lineConverted :
    ∀ (lines : List (List Char)) (flag : Bool) (n : Nat),
      getCheckboxesGo lines flag n = [] →
      ∀ l ∈ lines, lineConverted flag l = l := by
  intro lines
  induction lines with
  | nil => intro flag n _ l hl; exact absurd hl (by simp)
  | cons l0 rest ih =>
    intro flag n h l hl
    by_cases hskip : (!flag && !isMDCheckboxInTable l0) = true
    · rw [show getCheckboxesGo (l0 :: rest) flag n =
        getCheckboxesGo rest flag (n + 1) from by
          simp only [getCheckboxesGo, hskip, if_true]] at h
      rcases List.mem_cons.mp hl with rfl | hmem
      · simp [lineConverted, hskip]
      · exact ih flag (n + 1) h l hmem
    · rw [show getCheckboxesGo (l0 :: rest) flag n =
        ((lineMatches l0).map (fun m =>
          (EditorPosition.mk n m.1, EditorPosition.mk n (m.1 + m.2)))) ++
          getCheckboxesGo rest flag (n + 1) from by
          simp [getCheckboxesGo, hskip]] at h
      rw [List.append_eq_nil] at h
      rcases List.mem_cons.mp hl with rfl | hmem
      · have hlm : lineMatches l = [] := List.map_eq_nil_iff.mp h.1
        simp only [lineConverted, hskip, if_false]
        exact replaceMatchesGo_id_of_no_match placeholderP l.length l 0 hlm
      · exact ih flag (n + 1) h.2 l hmem

theorem map_id_of_mem {α : Type} (f : α → α) :
    ∀ (l : List α), (∀ x ∈ l, f x = x) → l.map f = l := by
  intro l
  induction l with
  | nil => intro _; rfl
  | cons a t ih =>
    intro h
    simp only [List.map_cons, h a (List.mem_cons_self a t),
      ih (fun x hx => h x (List.mem_cons_of_mem a hx))]

/-- CLAIM C4: when a bulk-conversion pass over the document matches no
checkbox tokens (as after a first pass converted them all), the pass
records no spans, issues no identifiers, and leaves the document text
unchanged. -/
theorem convertCheckboxes_idempotent (page : List Char) (flag : Bool)
    (h : getCheckboxesToConvert page flag = []) :
    convertCheckboxes page flag [] = page := by
  unfold convertCheckboxes convertPhase2
  simp only [List.foldl_nil]
  rw [map_id_of_mem _ (splitNl page)
    (getCheckboxesGo_nil_lineConverted (splitNl page) flag 0 h)]
  exact joinNl_splitNl page

/-- CLAIM C4 witness: a document whose only checkbox-shaped text is an
already rendered control matches nothing and is left unchanged by a
second pass. -/
theorem convertCheckboxes_idempotent_witness :
    convertCheckboxes
      (str "| a | <input type=\"checkbox\" unchecked id=\"abc123\"> |")
      false [] =
    str "| a | <input type=\"checkbox\" unchecked id=\"abc123\"> |" :=
  convertCheckboxes_idempotent
    (str "| a | <input type=\"checkbox\" unchecked id=\"abc123\"> |") false
    (by decide)

/- CLAIM C9: the convertCheckboxesOutsideTables policy. -/

theorem getCheckboxesGo_false_table :
    ∀ (lines : List (List Char)) (n : Nat) (cb : EditorPosition × EditorPosition),
      cb ∈ getCheckboxesGo lines false n →
      ∃ k l', lines[k]? = some l' ∧ cb.1.line = n + k ∧
        isMDCheckboxInTable l' = true := by
  intro lines
  induction lines with
  | nil => intro n cb h; exact absurd h (by simp [getCheckboxesGo])
  | cons l0 rest ih =>
    intro n cb h
    by_cases htab : isMDCheckboxInTable l0 = true
    · rw [show getCheckboxesGo (l0 :: rest) false n =
        ((lineMatches l0).map (fun m =>
          (EditorPosition.mk n m.1, EditorPosition.mk n (m.1 + m.2)))) ++
          getCheckboxesGo rest false (n + 1) from by
          simp [getCheckboxesGo, htab]] at h
      rcases List.mem_append.mp h with hm | hm
      · obtain ⟨m, _, hme⟩ := List.mem_map.mp hm
        exact ⟨0, l0, by simp, by rw [← hme]; simp, htab⟩
      · obtain ⟨k, l', hk, hline, htab'⟩ := ih (n + 1) cb hm
        exact ⟨k + 1, l', by simpa using hk, by omega, htab'⟩
    · rw [show getCheckboxesGo (l0 :: rest) false n =
        getCheckboxesGo rest false (n + 1) from by
          simp [getCheckboxesGo, htab]] at h
      obtain ⟨k, l', hk, hline, htab'⟩ := ih (n + 1) cb h
      exact ⟨k + 1, l', by simpa using hk, by omega, htab'⟩

theorem getCheckboxesGo_true_mem :
    ∀ (lines : List (List Char)) (n i : Nat) (l : List Char),
      lines[i]? = some l →
      ∀ m ∈ lineMatches l,
        (EditorPosition.mk (n + i) m.1, EditorPosition.mk (n + i) (m.1 + m.2)) ∈
          getCheckboxesGo lines true n := by
  intro lines
  induction lines with
  | nil => intro n i l h; simp at h
  | cons l0 rest ih =>
    intro n i l hline m hm
    have hgo : getCheckboxesGo (l0 :: rest) true n =
        ((lineMatches l0).map (fun mm =>
          (EditorPosition.mk n mm.1, EditorPosition.mk n (mm.1 + mm.2)))) ++
          getCheckboxesGo rest true (n + 1) := by
      simp [getCheckboxesGo]
    rw [hgo]
    cases i with
    | zero =>
      have hl : l0 = l := by simpa using hline
      subst hl
      exact List.mem_append_left _ (List.mem_map.mpr ⟨m, hm, by simp⟩)
    | succ j =>
      have hline' : rest[j]? = some l := by simpa using hline
      have := ih (n + 1) j l hline' m hm
      rw [show n + 1 + j = n + (j + 1) from by omega] at this
      exact List.mem_append_right _ this

/-- CLAIM C9: for every document and every line that is not recognized
as a table-context checkbox line, bulk conversion with the policy flag
off records no span on that line (its tokens are left unconverted),
while bulk conversion with the flag on records a span for every checkbox
token match of that same line. -/
theorem getCheckboxesToConvert_policy (page : List Char) (i : Nat)
    (l : List Char) (hline : (splitNl page)[i]? = some l)
    (hnot : isMDCheckboxInTable l = false) :
    (∀ cb ∈ getCheckboxesToConvert page false, cb.1.line ≠ i) ∧
    (∀ m ∈ lineMatches l,
      (EditorPosition.mk i m.1, EditorPosition.mk i (m.1 + m.2)) ∈
        getCheckboxesToConvert page true) := by
  constructor
  · intro cb hcb hEq
    obtain ⟨k, l', hk, hcbl, htab⟩ :=
      getCheckboxesGo_false_table (splitNl page) 0 cb hcb
    have hki : k = i := by omega
    subst hki
    rw [hline] at hk
    have : l = l' := by injection hk
    rw [← this] at htab
    rw [htab] at hnot
    exact Bool.noConfusion hnot
  · intro m hm
    have := getCheckboxesGo_true_mem (splitNl page) 0 i l hline m hm
    simpa using this

/-- CLAIM C9 witness: the document "- [ ]" is a single non-table line;
with the flag off no span is recorded there, with the flag on the token
at columns 0 to 5 is recorded. -/
theorem getCheckboxesToConvert_policy_witness :
    (∀ cb ∈ getCheckboxesToConvert (str "- [ ]") false, cb.1.line ≠ 0) ∧
    (∀ m ∈ lineMatches (str "- [ ]"),
      (EditorPosition.mk 0 m.1, EditorPosition.mk 0 (m.1 + m.2)) ∈
        getCheckboxesToConvert (str "- [ ]") true) :=
  getCheckboxesToConvert_policy (str "- [ ]") 0 (str "- [ ]")
    (by decide) (by decide)

/-
CLAIM C10 development.  The two-phase placeholder strategy of
convertCheckboxes is compared with the direct substitution the claim
describes.  A line is decomposed by the same scan the span recording and
the placeholder replacement perform: an alternating list of (gap, token)
pairs followed by a final gap; the document decomposition merges the line
decompositions with newline separators.  The frame property then states
that the conversion result is the recomposition with each token replaced,
in recorded order, by the rendered control of its batch identifier.
-/

/-- Decomposition of a line by the bulk-regex scan: the list of
(gap, matched token) pairs, in order, and the text after the last match. -/
def lineDecompGo (fuel : Nat) (s : List Char) :
    List (List Char × List Char) × List Char :=
  match fuel, s with
  | 0, s => ([], s)
  | _ + 1, [] => ([], [])
  | fuel + 1, a :: t =>
    match bulkMatchLen (a :: t) with
    | some len =>
      (([], (a :: t).take len) :: (lineDecompGo fuel ((a :: t).drop len)).1,
        (lineDecompGo fuel ((a :: t).drop len)).2)
    | none =>
      match (lineDecompGo fuel t).1 with
      | [] => ([], a :: (lineDecompGo fuel t).2)
      | (g, tok) :: rest => ((a :: g, tok) :: rest, (lineDecompGo fuel t).2)

/-- Line decomposition with the table-context policy applied: a skipped
line contributes no pairs and itself as final gap. -/
def lineDecomp (flag : Bool) (l : List Char) :
    List (List Char × List Char) × List Char :=
  if !flag && !isMDCheckboxInTable l then ([], l) else lineDecompGo l.length l

/-- Merge two decompositions with a newline separator between them. -/
def seqApp (d1 d2 : List (List Char × List Char) × List Char) :
    List (List Char × List Char) × List Char :=
  match d2.1 with
  | [] => (d1.1, d1.2 ++ '\n' :: d2.2)
  | (g, tok) :: rest => (d1.1 ++ (d1.2 ++ '\n' :: g, tok) :: rest, d2.2)

/-- Decomposition of the whole document, line by line. -/
def docDecomp (flag : Bool) : List (List Char) →
    List (List Char × List Char) × List Char
  | [] => ([], [])
  | [l] => lineDecomp flag l
  | l :: l2 :: r => seqApp (lineDecomp flag l) (docDecomp flag (l2 :: r))

theorem lineDecompGo_recompose (fuel : Nat) :
    ∀ (s : List Char),
      ((lineDecompGo fuel s).1.map (fun q => q.1 ++ q.2)).join ++
        (lineDecompGo fuel s).2 = s := by
  induction fuel with
  | zero => intro s; simp [lineDecompGo]
  | succ fuel ih =>
    intro s
    cases s with
    | nil => simp [lineDecompGo]
    | cons a t =>
      cases hb : bulkMatchLen (a :: t) with
      | some len =>
        simp only [lineDecompGo, hb, List.map_cons, List.join_cons,
          List.nil_append, List.append_assoc]
        rw [ih ((a :: t).drop len)]
        exact List.take_append_drop len (a :: t)
      | none =>
        have hrec := ih t
        cases hr : (lineDecompGo fuel t).1 with
        | nil =>
          simp only [lineDecompGo, hb, hr, List.map_nil, List.join_nil,
            List.nil_append, List.cons.injEq, true_and]
          rw [hr] at hrec
          simpa using hrec
        | cons g0 rest =>
          obtain ⟨g, tok⟩ := g0
          rw [hr] at hrec
          simp only [List.map_cons, List.join_cons, List.append_assoc] at hrec
          simp only [lineDecompGo, hb, hr, List.map_cons, List.join_cons,
            List.cons_append, List.append_assoc]
          rw [hrec]

theorem replaceMatchesGo_decomp (repl : List Char) (fuel : Nat) :
    ∀ (s : List Char),
      replaceMatchesGo repl fuel s =
        ((lineDecompGo fuel s).1.map (fun q => q.1 ++ repl)).join ++
          (lineDecompGo fuel s).2 := by
  induction fuel with
  | zero => intro s; simp [replaceMatchesGo, lineDecompGo]
  | succ fuel ih =>
    intro s
    cases s with
    | nil => simp [replaceMatchesGo, lineDecompGo]
    | cons a t =>
      cases hb : bulkMatchLen (a :: t) with
      | some len =>
        simp only [replaceMatchesGo, lineDecompGo, hb, List.map_cons,
          List.join_cons, List.nil_append, List.append_assoc]
        rw [ih ((a :: t).drop len)]
      | none =>
        have hrec := ih t
        cases hr : (lineDecompGo fuel t).1 with
        | nil =>
          simp only [replaceMatchesGo, lineDecompGo, hb, hr, List.map_nil,
            List.join_nil, List.nil_append] at hrec ⊢
          rw [hrec]
        | cons g0 rest =>
          obtain ⟨g, tok⟩ := g0
          rw [hr] at hrec
          simp only [List.map_cons, List.join_cons, List.append_assoc] at hrec
          simp only [replaceMatchesGo, lineDecompGo, hb, hr, List.map_cons,
            List.join_cons, List.cons_append, List.append_assoc]
          rw [hrec]

theorem lineDecompGo_length (fuel : Nat) :
    ∀ (s : List Char) (i : Nat),
      (lineDecompGo fuel s).1.length = (lineMatchesGo fuel s i).length := by
  induction fuel with
  | zero => intro s i; simp [lineDecompGo, lineMatchesGo]
  | succ fuel ih =>
    intro s i
    cases s with
    | nil => simp [lineDecompGo, lineMatchesGo]
    | cons a t =>
      cases hb : bulkMatchLen (a :: t) with
      | some len =>
        simp only [lineDecompGo, lineMatchesGo, hb, List.length_cons]
        rw [ih ((a :: t).drop len) (i + len)]
      | none =>
        have hrec := ih t (i + 1)
        cases hr : (lineDecompGo fuel t).1 with
        | nil =>
          simp only [lineDecompGo, lineMatchesGo, hb, hr]
          rw [hr] at hrec
          simpa using hrec
        | cons g0 rest =>
          obtain ⟨g, tok⟩ := g0
          rw [hr] at hrec
          simp only [lineDecompGo, lineMatchesGo, hb, hr, List.length_cons] at hrec ⊢
          omega

theorem seqApp_recompose (d1 d2 : List (List Char × List Char) × List Char) :
    ((seqApp d1 d2).1.map (fun q => q.1 ++ q.2)).join ++ (seqApp d1 d2).2 =
      ((d1.1.map (fun q => q.1 ++ q.2)).join ++ d1.2) ++ '\n' ::
        ((d2.1.map (fun q => q.1 ++ q.2)).join ++ d2.2) := by
  obtain ⟨ps1, fin1⟩ := d1
  obtain ⟨ps2, fin2⟩ := d2
  cases ps2 with
  | nil => simp [seqApp, List.append_assoc]
  | cons g0 rest =>
    obtain ⟨g, tok⟩ := g0
    simp [seqApp, List.map_append, List.join_append, List.append_assoc]

theorem seqApp_recomposeP (repl : List Char)
    (d1 d2 : List (List Char × List Char) × List Char) :
    ((seqApp d1 d2).1.map (fun q => q.1 ++ repl)).join ++ (seqApp d1 d2).2 =
      ((d1.1.map (fun q => q.1 ++ repl)).join ++ d1.2) ++ '\n' ::
        ((d2.1.map (fun q => q.1 ++ repl)).join ++ d2.2) := by
  obtain ⟨ps1, fin1⟩ := d1
  obtain ⟨ps2, fin2⟩ := d2
  cases ps2 with
  | nil => simp [seqApp, List.append_assoc]
  | cons g0 rest =>
    obtain ⟨g, tok⟩ := g0
    simp [seqApp, List.map_append, List.join_append, List.append_assoc]

theorem seqApp_length (d1 d2 : List (List Char × List Char) × List Char) :
    (seqApp d1 d2).1.length = d1.1.length + d2.1.length := by
  obtain ⟨ps1, fin1⟩ := d1
  obtain ⟨ps2, fin2⟩ := d2
  cases ps2 with
  | nil => simp [seqApp]
  | cons g0 rest =>
    obtain ⟨g, tok⟩ := g0
    simp [seqApp]

theorem lineDecomp_recompose (flag : Bool) (l : List Char) :
    ((lineDecomp flag l).1.map (fun q => q.1 ++ q.2)).join ++
      (lineDecomp flag l).2 = l := by
  unfold lineDecomp
  by_cases hskip : (!flag && !isMDCheckboxInTable l) = true
  · simp [hskip]
  · simp only [hskip, if_false, Bool.false_eq_true]
    exact lineDecompGo_recompose l.length l

theorem docDecomp_recompose (flag : Bool) :
    ∀ (lines : List (List Char)),
      ((docDecomp flag lines).1.map (fun q => q.1 ++ q.2)).join ++
        (docDecomp flag lines).2 = joinNl lines := by
  intro lines
  induction lines with
  | nil => rfl
  | cons l rest ih =>
    cases rest with
    | nil =>
      show ((lineDecomp flag l).1.map _).join ++ (lineDecomp flag l).2 = joinNl [l]
      rw [lineDecomp_recompose]
      rfl
    | cons l2 r =>
      show ((seqApp (lineDecomp flag l) (docDecomp flag (l2 :: r))).1.map _).join ++
        (seqApp (lineDecomp flag l) (docDecomp flag (l2 :: r))).2 = joinNl (l :: l2 :: r)
      rw [seqApp_recompose, lineDecomp_recompose, ih]
      rfl

theorem lineDecomp_phase1 (flag : Bool) (l : List Char) :
    lineConverted flag l =
      ((lineDecomp flag l).1.map (fun q => q.1 ++ placeholderP)).join ++
        (lineDecomp flag l).2 := by
  unfold lineConverted lineDecomp
  by_cases hskip : (!flag && !isMDCheckboxInTable l) = true
  · simp [hskip]
  · simp only [hskip, if_false, Bool.false_eq_true]
    exact replaceMatchesGo_decomp placeholderP l.length l

theorem docDecomp_phase1 (flag : Bool) :
    ∀ (lines : List (List Char)),
      joinNl (lines.map (lineConverted flag)) =
        ((docDecomp flag lines).1.map (fun q => q.1 ++ placeholderP)).join ++
          (docDecomp flag lines).2 := by
  intro lines
  induction lines with
  | nil => rfl
  | cons l rest ih =>
    cases rest with
    | nil =>
      show joinNl [lineConverted flag l] = _
      rw [show joinNl [lineConverted flag l] = lineConverted flag l from rfl]
      exact lineDecomp_phase1 flag l
    | cons l2 r =>
      show joinNl (lineConverted flag l :: (l2 :: r).map (lineConverted flag)) = _
      have hmapne : ∃ h2 r2, (l2 :: r).map (lineConverted flag) = h2 :: r2 :=
        ⟨lineConverted flag l2, r.map (lineConverted flag), by simp⟩
      obtain ⟨h2, r2, hm⟩ := hmapne
      rw [hm]
      show lineConverted flag l ++ '\n' :: joinNl (h2 :: r2) = _
      rw [← hm, ih, lineDecomp_phase1 flag l]
      rw [show docDecomp flag (l :: l2 :: r) =
        seqApp (lineDecomp flag l) (docDecomp flag (l2 :: r)) from rfl]
      rw [seqApp_recomposeP]

theorem docDecomp_length (flag : Bool) :
    ∀ (lines : List (List Char)) (n : Nat),
      (docDecomp flag lines).1.length = (getCheckboxesGo lines flag n).length := by
  intro lines
  induction lines with
  | nil => intro n; rfl
  | cons l rest ih =>
    intro n
    have hline : (lineDecomp flag l).1.length =
        (if !flag && !isMDCheckboxInTable l then 0 else (lineMatches l).length) := by
      unfold lineDecomp
      by_cases hskip : (!flag && !isMDCheckboxInTable l) = true
      · simp [hskip]
      · simp only [hskip, if_false, Bool.false_eq_true]
        exact lineDecompGo_length l.length l 0
    cases rest with
    | nil =>
      show (lineDecomp flag l).1.length = _
      rw [hline]
      by_cases hskip : (!flag && !isMDCheckboxInTable l) = true
      · simp [getCheckboxesGo, hskip]
      · simp [getCheckboxesGo, hskip]
    | cons l2 r =>
      show (seqApp (lineDecomp flag l) (docDecomp flag (l2 :: r))).1.length = _
      rw [seqApp_length, hline, ih (n + 1)]
      by_cases hskip : (!flag && !isMDCheckboxInTable l) = true
      · simp [getCheckboxesGo, hskip]
      · simp [getCheckboxesGo, hskip]

/- Occurrence lemmas for the substring search. -/

theorem listStartsWith_length_le (s pat : List Char)
    (h : listStartsWith s pat = true) : pat.length ≤ s.length := by
  rw [listStartsWith_eq_decide] at h
  have := decide_eq_true_eq.mp h
  have hlen := congrArg List.length this
  rw [List.length_take] at hlen
  omega

theorem listStartsWith_getElem (s pat : List Char)
    (h : listStartsWith s pat = true) :
    ∀ k, k < pat.length → s[k]? = pat[k]? := by
  induction pat generalizing s with
  | nil => intro k hk; simp at hk
  | cons p pr ih =>
    cases s with
    | nil => simp [listStartsWith] at h
    | cons a ar =>
      simp only [listStartsWith, Bool.and_eq_true, decide_eq_true_eq] at h
      intro k hk
      cases k with
      | zero => simp [h.1]
      | succ j =>
        simp only [List.getElem?_cons_succ]
        exact ih ar h.2 j (by simpa using hk)

theorem startsWith_append_split (p q s : List Char)
    (h : listStartsWith s (p ++ q) = true) :
    listStartsWith (s.drop p.length) q = true := by
  induction p generalizing s with
  | nil => simpa using h
  | cons p0 pr ih =>
    cases s with
    | nil => simp [listStartsWith] at h
    | cons a ar =>
      simp only [List.cons_append, listStartsWith, Bool.and_eq_true] at h
      simpa using ih ar h.2

theorem startsWith_of_append_pat (p q s : List Char)
    (h : listStartsWith s (p ++ q) = true) :
    listStartsWith s p = true := by
  induction p generalizing s with
  | nil => simp [listStartsWith]
  | cons p0 pr ih =>
    cases s with
    | nil => simp [listStartsWith] at h
    | cons a ar =>
      simp only [List.cons_append, listStartsWith, Bool.and_eq_true] at h ⊢
      exact ⟨h.1, ih ar h.2⟩

theorem startsWith_append_elim (s v pat : List Char)
    (h : listStartsWith (s ++ v) pat = true) (hlen : pat.length ≤ s.length) :
    listStartsWith s pat = true := by
  rw [listStartsWith_eq_decide] at h ⊢
  rw [List.take_append_eq_append_take] at h
  rw [show pat.length - s.length = 0 from by omega] at h
  simpa using h

theorem listStartsWith_append_of (s v pat : List Char)
    (h : listStartsWith s pat = true) :
    listStartsWith (s ++ v) pat = true := by
  have hlen := listStartsWith_length_le s pat h
  rw [listStartsWith_eq_decide] at h ⊢
  rw [List.take_append_eq_append_take,
    show pat.length - s.length = 0 from by omega]
  simpa using h

theorem containsSub_nil_pat (s : List Char) : containsSub s [] = true := by
  cases s <;> simp [containsSub, listStartsWith]

theorem containsSub_cons_of (a : Char) (t pat : List Char)
    (h : containsSub t pat = true) : containsSub (a :: t) pat = true := by
  simp [containsSub, h]

theorem containsSub_of_sw (s pat : List Char)
    (h : listStartsWith s pat = true) : containsSub s pat = true := by
  cases s with
  | nil => simpa [containsSub] using h
  | cons a t => simp [containsSub, h]

theorem containsSub_of_drop_sw (s pat : List Char) (i : Nat)
    (h : listStartsWith (s.drop i) pat = true) : containsSub s pat = true := by
  induction s generalizing i with
  | nil => simpa [containsSub] using h
  | cons a t ih =>
    cases i with
    | zero => exact containsSub_of_sw _ _ (by simpa using h)
    | succ j => exact containsSub_cons_of a t pat (ih j (by simpa using h))

theorem containsSub_exists (s pat : List Char)
    (h : containsSub s pat = true) :
    ∃ i, listStartsWith (s.drop i) pat = true := by
  induction s with
  | nil => exact ⟨0, by simpa [containsSub] using h⟩
  | cons a t ih =>
    simp only [containsSub, Bool.or_eq_true] at h
    rcases h with h | h
    · exact ⟨0, by simpa using h⟩
    · obtain ⟨i, hi⟩ := ih h
      exact ⟨i + 1, by simpa using hi⟩

theorem containsSub_append_left (x v pat : List Char)
    (h : containsSub x pat = true) : containsSub (x ++ v) pat = true := by
  obtain ⟨i, hi⟩ := containsSub_exists x pat h
  apply containsSub_of_drop_sw (x ++ v) pat i
  rw [List.drop_append_eq_append_drop]
  exact listStartsWith_append_of _ _ _ hi

theorem containsSub_append_right (u v pat : List Char)
    (h : containsSub v pat = true) : containsSub (u ++ v) pat = true := by
  induction u with
  | nil => simpa using h
  | cons a t ih => exact containsSub_cons_of a (t ++ v) pat ih

theorem containsSub_part (s x pat : List Char)
    (hpart : ∃ u v, s = u ++ (x ++ v)) (h : containsSub x pat = true) :
    containsSub s pat = true := by
  obtain ⟨u, v, rfl⟩ := hpart
  exact containsSub_append_right u (x ++ v) pat
    (containsSub_append_left x v pat h)

/- Character-class argument: every character of the placeholder core is
an uppercase letter or an underscore, so a core occurrence can never
cover a boundary character of another class. -/

/-- The character class of the placeholder core. -/
def isCoreChar (c : Char) : Bool := ('A' ≤ c && c ≤ 'Z') || c = '_'

theorem core_all_core : placeholderCore.all isCoreChar = true := by decide

theorem core_getElem_core (k : Nat) (d : Char)
    (h : placeholderCore[k]? = some d) : isCoreChar d = true :=
  List.all_eq_true.mp core_all_core d (List.getElem?_mem h)

/-- A contiguous occurrence of the placeholder core inside x ++ y either
lies inside x, lies inside y, or covers the first character of y and the
last character of x. -/
theorem noC_append_headGuard (x y : List Char) (c : Char)
    (hx : containsSub x placeholderCore = false)
    (hy : containsSub y placeholderCore = false)
    (hhead : y[0]? = some c) (hc : isCoreChar c = false) :
    containsSub (x ++ y) placeholderCore = false := by
  by_contra h
  have htrue : containsSub (x ++ y) placeholderCore = true := by
    cases hb : containsSub (x ++ y) placeholderCore
    · exact absurd hb h
    · rfl
  obtain ⟨i, hsw⟩ := containsSub_exists _ _ htrue
  by_cases h1 : i + placeholderCore.length ≤ x.length
  · have hdrop : (x ++ y).drop i = x.drop i ++ y.drop (i - x.length) :=
      List.drop_append_eq_append_drop
    rw [hdrop] at hsw
    have hsw2 : listStartsWith (x.drop i) placeholderCore = true :=
      startsWith_append_elim _ _ _ hsw (by rw [List.length_drop]; omega)
    have := containsSub_of_drop_sw x placeholderCore i hsw2
    rw [hx] at this
    exact Bool.noConfusion this
  · by_cases h2 : x.length ≤ i
    · have hdrop : (x ++ y).drop i = y.drop (i - x.length) := by
        rw [List.drop_append_eq_append_drop,
          List.drop_eq_nil_of_le h2, List.nil_append]
      rw [hdrop] at hsw
      have := containsSub_of_drop_sw y placeholderCore (i - x.length) hsw
      rw [hy] at this
      exact Bool.noConfusion this
    · have hi : i < x.length := by omega
      have hix : x.length < i + placeholderCore.length := by omega
      have hk : x.length - i < placeholderCore.length := by omega
      obtain ⟨d, hd⟩ : ∃ d, placeholderCore[x.length - i]? = some d :=
        ⟨placeholderCore[x.length - i], List.getElem?_eq_getElem hk⟩
      have hEq := listStartsWith_getElem _ _ hsw (x.length - i) hk
      rw [List.getElem?_drop] at hEq
      rw [show i + (x.length - i) = x.length from by omega] at hEq
      rw [List.getElem?_append_right (le_refl x.length)] at hEq
      rw [Nat.sub_self] at hEq
      rw [hhead, hd] at hEq
      have : c = d := by injection hEq
      rw [this] at hc
      rw [core_getElem_core (x.length - i) d hd] at hc
      exact Bool.noConfusion hc

/-- Symmetric guard: the occurrence would cover the last character of x. -/
theorem noC_append_lastGuard (x y : List Char) (c : Char)
    (hx : containsSub x placeholderCore = false)
    (hy : containsSub y placeholderCore = false)
    (hlast : x.getLast? = some c) (hc : isCoreChar c = false) :
    containsSub (x ++ y) placeholderCore = false := by
  by_contra h
  have htrue : containsSub (x ++ y) placeholderCore = true := by
    cases hb : containsSub (x ++ y) placeholderCore
    · exact absurd hb h
    · rfl
  obtain ⟨i, hsw⟩ := containsSub_exists _ _ htrue
  by_cases h1 : i + placeholderCore.length ≤ x.length
  · have hdrop : (x ++ y).drop i = x.drop i ++ y.drop (i - x.length) :=
      List.drop_append_eq_append_drop
    rw [hdrop] at hsw
    have hsw2 : listStartsWith (x.drop i) placeholderCore = true :=
      startsWith_append_elim _ _ _ hsw (by rw [List.length_drop]; omega)
    have := containsSub_of_drop_sw x placeholderCore i hsw2
    rw [hx] at this
    exact Bool.noConfusion this
  · by_cases h2 : x.length ≤ i
    · have hdrop : (x ++ y).drop i = y.drop (i - x.length) := by
        rw [List.drop_append_eq_append_drop,
          List.drop_eq_nil_of_le h2, List.nil_append]
      rw [hdrop] at hsw
      have := containsSub_of_drop_sw y placeholderCore (i - x.length) hsw
      rw [hy] at this
      exact Bool.noConfusion this
    · have hi : i < x.length := by omega
      have hxne : x.length ≠ 0 := by omega
      have hk : x.length - 1 - i < placeholderCore.length := by omega
      obtain ⟨d, hd⟩ : ∃ d, placeholderCore[x.length - 1 - i]? = some d :=
        ⟨placeholderCore[x.length - 1 - i], List.getElem?_eq_getElem hk⟩
      have hEq := listStartsWith_getElem _ _ hsw (x.length - 1 - i) hk
      rw [List.getElem?_drop] at hEq
      rw [show i + (x.length - 1 - i) = x.length - 1 from by omega] at hEq
      rw [List.getElem?_append_left (by omega)] at hEq
      rw [← List.getLast?_eq_getElem? x] at hEq
      rw [hlast, hd] at hEq
      have : c = d := by injection hEq
      rw [this] at hc
      rw [core_getElem_core (x.length - 1 - i) d hd] at hc
      exact Bool.noConfusion hc

theorem noC_ctrl (id : List Char)
    (hid : containsSub id placeholderCore = false) :
    containsSub (ctrlPat false id) placeholderCore = false := by
  have h1 : containsSub (id ++ str "\">") placeholderCore = false :=
    noC_append_headGuard id (str "\">") '"' hid (by decide) (by decide) (by decide)
  have h2 : containsSub (str "checked id=\"" ++ (id ++ str "\">"))
      placeholderCore = false :=
    noC_append_lastGuard _ _ '"' (by decide) h1 (by decide) (by decide)
  have h3 : containsSub (str "un" ++ (str "checked id=\"" ++ (id ++ str "\">")))
      placeholderCore = false :=
    noC_append_lastGuard _ _ 'n' (by decide) h2 (by decide) (by decide)
  have h4 : containsSub (str "<input type=\"checkbox\" " ++
      (str "un" ++ (str "checked id=\"" ++ (id ++ str "\">"))))
      placeholderCore = false :=
    noC_append_lastGuard _ _ ' ' (by decide) h3 (by decide) (by decide)
  simpa [ctrlPat] using h4

theorem ctrl_getElem0 (b : Bool) (id : List Char) :
    (ctrlPat b id)[0]? = some '<' := by
  unfold ctrlPat
  rw [List.getElem?_append_left
    (by decide : (0 : Nat) < (str "<input type=\"checkbox\" ").length)]
  decide

theorem ctrl_length_pos (b : Bool) (id : List Char) :
    0 < (ctrlPat b id).length := by
  unfold ctrlPat
  rw [List.length_append]
  have : (str "<input type=\"checkbox\" ").length = 23 := by decide
  omega

theorem ctrl_getLast (b : Bool) (id : List Char) :
    (ctrlPat b id).getLast? = some '>' := by
  unfold ctrlPat
  rw [List.getLast?_append, List.getLast?_append, List.getLast?_append,
    List.getLast?_append]
  rw [show (str "\x22>").getLast? = some '>' from by decide]
  rfl

theorem noC_doneCat (done : List (List Char × List Char)) (last : List Char)
    (hdone : ∀ q ∈ done, containsSub q.1 placeholderCore = false ∧
      containsSub q.2 placeholderCore = false)
    (hlast : containsSub last placeholderCore = false) :
    containsSub ((done.map (fun q => q.1 ++ ctrlPat false q.2)).join ++ last)
      placeholderCore = false := by
  induction done with
  | nil => simpa using hlast
  | cons q rest ih =>
    obtain ⟨f, id⟩ := q
    have hq := hdone (f, id) (List.mem_cons_self _ _)
    have hrest := ih (fun r hr => hdone r (List.mem_cons_of_mem _ hr))
    simp only [List.map_cons, List.join_cons, List.append_assoc]
    have hctrl : containsSub (ctrlPat false id ++
        ((rest.map (fun q => q.1 ++ ctrlPat false q.2)).join ++ last))
        placeholderCore = false :=
      noC_append_lastGuard _ _ '>' (noC_ctrl id hq.2) hrest
        (ctrl_getLast false id) (by decide)
    exact noC_append_headGuard f _ '<' hq.1 hctrl
      (by rw [List.getElem?_append_left (ctrl_length_pos false id)]
          exact ctrl_getElem0 false id)
      (by decide)

theorem placeholder_split :
    placeholderP = str "!!" ++ (placeholderCore ++ str "!!") := by decide

theorem noOcc_prefix (A B : List Char)
    (hA : containsSub A placeholderCore = false) :
    ∀ i, i < A.length →
      listStartsWith ((A ++ (placeholderP ++ B)).drop i) placeholderP = false := by
  intro i hi
  by_contra h
  have hsw : listStartsWith ((A ++ (placeholderP ++ B)).drop i) placeholderP = true := by
    cases hb : listStartsWith ((A ++ (placeholderP ++ B)).drop i) placeholderP
    · exact absurd hb h
    · rfl
  rw [placeholder_split] at hsw
  have hcore0 := startsWith_append_split (str "!!") (placeholderCore ++ str "!!") _ hsw
  have hcore1 := startsWith_of_append_pat placeholderCore (str "!!") _ hcore0
  rw [List.drop_drop] at hcore1
  have hcore : listStartsWith ((A ++ (placeholderP ++ B)).drop (i + 2))
      placeholderCore = true := by
    rw [show (str "!!").length = 2 from by decide] at hcore1
    rw [← placeholder_split] at hcore1
    exact hcore1
  by_cases h1 : (i + 2) + placeholderCore.length ≤ A.length
  · have hdrop : (A ++ (placeholderP ++ B)).drop (i + 2) =
        A.drop (i + 2) ++ (placeholderP ++ B).drop ((i + 2) - A.length) :=
      List.drop_append_eq_append_drop
    rw [hdrop] at hcore
    have hsw2 : listStartsWith (A.drop (i + 2)) placeholderCore = true :=
      startsWith_append_elim _ _ _ hcore (by rw [List.length_drop]; omega)
    have := containsSub_of_drop_sw A placeholderCore (i + 2) hsw2
    rw [hA] at this
    exact Bool.noConfusion this
  · by_cases h2 : i + 2 ≤ A.length
    · have hk : A.length - (i + 2) < placeholderCore.length := by omega
      obtain ⟨d, hd⟩ : ∃ d, placeholderCore[A.length - (i + 2)]? = some d :=
        ⟨placeholderCore[A.length - (i + 2)], List.getElem?_eq_getElem hk⟩
      have hEq := listStartsWith_getElem _ _ hcore (A.length - (i + 2)) hk
      rw [List.getElem?_drop] at hEq
      rw [show (i + 2) + (A.length - (i + 2)) = A.length from by omega] at hEq
      rw [List.getElem?_append_right (le_refl A.length), Nat.sub_self] at hEq
      rw [List.getElem?_append_left
        (by decide : (0 : Nat) < placeholderP.length)] at hEq
      rw [show placeholderP[0]? = some '!' from by decide, hd] at hEq
      have hde : '!' = d := by injection hEq
      have := core_getElem_core _ d hd
      rw [← hde] at this
      exact Bool.noConfusion (by exact (by decide : isCoreChar '!' = false) ▸ this)
    · have hj : i + 2 = A.length + 1 := by omega
      have hk : (0 : Nat) < placeholderCore.length := by decide
      obtain ⟨d, hd⟩ : ∃ d, placeholderCore[0]? = some d :=
        ⟨placeholderCore[0], List.getElem?_eq_getElem hk⟩
      have hEq := listStartsWith_getElem _ _ hcore 0 hk
      rw [List.getElem?_drop] at hEq
      rw [show (i + 2) + 0 = A.length + 1 from by omega] at hEq
      rw [List.getElem?_append_right (by omega : A.length ≤ A.length + 1)] at hEq
      rw [show A.length + 1 - A.length = 1 from by omega] at hEq
      rw [List.getElem?_append_left
        (by decide : (1 : Nat) < placeholderP.length)] at hEq
      rw [show placeholderP[1]? = some '!' from by decide, hd] at hEq
      have hde : '!' = d := by injection hEq
      have := core_getElem_core _ d hd
      rw [← hde] at this
      exact Bool.noConfusion (by exact (by decide : isCoreChar '!' = false) ▸ this)

theorem replaceFirst_cons_pos (pat repl : List Char) (a : Char) (t : List Char)
    (h : listStartsWith (a :: t) pat = true) :
    replaceFirst pat repl (a :: t) = repl ++ (a :: t).drop pat.length := by
  simp [replaceFirst, h]

theorem replaceFirst_cons_neg (pat repl : List Char) (a : Char) (t : List Char)
    (h : listStartsWith (a :: t) pat = false) :
    replaceFirst pat repl (a :: t) = a :: replaceFirst pat repl t := by
  simp [replaceFirst, h]

theorem replaceFirst_exact (A B R : List Char)
    (hA : containsSub A placeholderCore = false) :
    replaceFirst placeholderP R (A ++ (placeholderP ++ B)) = A ++ (R ++ B) := by
  induction A with
  | nil =>
    simp only [List.nil_append]
    cases hx : placeholderP ++ B with
    | nil =>
      have hne : (placeholderP ++ B).length ≠ 0 := by
        rw [List.length_append]
        have : placeholderP.length = 44 := by decide
        omega
      rw [hx] at hne
      simp at hne
    | cons a t =>
      rw [replaceFirst_cons_pos _ _ a t
        (by rw [← hx]; exact listStartsWith_self_app _ _)]
      rw [← hx, List.drop_left]
  | cons a A' ih =>
    have hA' : containsSub A' placeholderCore = false := by
      unfold containsSub at hA
      rw [Bool.or_eq_false_iff] at hA
      exact hA.2
    have h0 := noOcc_prefix (a :: A') B hA 0 (by simp)
    simp only [List.drop_zero, List.cons_append] at h0
    rw [List.cons_append, replaceFirst_cons_neg _ _ _ _ h0, ih hA',
      List.cons_append]

theorem convertPhase2_steps :
    ∀ (ps : List (List Char × List Char)) (ids : List (List Char))
      (done : List (List Char × List Char)) (fin : List Char),
      ids.length = ps.length →
      (∀ q ∈ done, containsSub q.1 placeholderCore = false ∧
        containsSub q.2 placeholderCore = false) →
      (∀ q ∈ ps, containsSub q.1 placeholderCore = false) →
      (∀ id ∈ ids, containsSub id placeholderCore = false) →
      convertPhase2
        ((done.map (fun q => q.1 ++ ctrlPat false q.2)).join ++
          ((ps.map (fun q => q.1 ++ placeholderP)).join ++ fin)) ids =
      (done.map (fun q => q.1 ++ ctrlPat false q.2)).join ++
        ((List.zipWith (fun q id => q.1 ++ ctrlPat false id) ps ids).join ++ fin) := by
  intro ps
  induction ps with
  | nil =>
    intro ids done fin hlen _ _ _
    have hids0 : ids = [] := List.length_eq_zero.mp (by simpa using hlen)
    subst hids0
    rfl
  | cons q ps' ih =>
    intro ids done fin hlen hdone hps hids
    obtain ⟨f, tok⟩ := q
    cases ids with
    | nil => simp at hlen
    | cons id ids' =>
      have hf : containsSub f placeholderCore = false := by
        have := hps (f, tok) (List.mem_cons_self _ _)
        simpa using this
      have hid : containsSub id placeholderCore = false :=
        hids id (List.mem_cons_self _ _)
      have hstep : convertPhase2
          ((done.map (fun q => q.1 ++ ctrlPat false q.2)).join ++
            ((((f, tok) :: ps').map (fun q => q.1 ++ placeholderP)).join ++ fin))
          (id :: ids') =
          convertPhase2 (replaceFirst placeholderP (ctrlPat false id)
            ((done.map (fun q => q.1 ++ ctrlPat false q.2)).join ++
              ((((f, tok) :: ps').map (fun q => q.1 ++ placeholderP)).join ++ fin)))
          ids' := rfl
      rw [hstep]
      have hshape : (done.map (fun q => q.1 ++ ctrlPat false q.2)).join ++
          ((((f, tok) :: ps').map (fun q => q.1 ++ placeholderP)).join ++ fin) =
          ((done.map (fun q => q.1 ++ ctrlPat false q.2)).join ++ f) ++
            (placeholderP ++ ((ps'.map (fun q => q.1 ++ placeholderP)).join ++ fin)) := by
        simp [List.map_cons, List.join_cons, List.append_assoc]
      rw [hshape]
      rw [replaceFirst_exact _ _ _ (noC_doneCat done f hdone hf)]
      have hshape2 : ((done.map (fun q => q.1 ++ ctrlPat false q.2)).join ++ f) ++
          (ctrlPat false id ++ ((ps'.map (fun q => q.1 ++ placeholderP)).join ++ fin)) =
          ((done ++ [(f, id)]).map (fun q => q.1 ++ ctrlPat false q.2)).join ++
            ((ps'.map (fun q => q.1 ++ placeholderP)).join ++ fin) := by
        simp [List.map_append, List.join_append, List.append_assoc]
      rw [hshape2]
      have hdone' : ∀ q ∈ done ++ [(f, id)],
          containsSub q.1 placeholderCore = false ∧
          containsSub q.2 placeholderCore = false := by
        intro q hq
        rcases List.mem_append.mp hq with hq | hq
        · exact hdone q hq
        · have : q = (f, id) := by simpa using hq
          subst this
          exact ⟨hf, hid⟩
      have hps' : ∀ q ∈ ps', containsSub q.1 placeholderCore = false :=
        fun q hq => hps q (List.mem_cons_of_mem _ hq)
      have hids' : ∀ i ∈ ids', containsSub i placeholderCore = false :=
        fun i hi => hids i (List.mem_cons_of_mem _ hi)
      rw [ih ids' (done ++ [(f, id)]) fin (by simpa using hlen) hdone' hps' hids']
      simp [List.map_append, List.join_append, List.append_assoc,
        List.zipWith_cons_cons, List.join_cons]

theorem mem_decomp_frag_part (ps : List (List Char × List Char))
    (fin : List Char) (q : List Char × List Char) (hq : q ∈ ps) :
    ∃ u v, (ps.map (fun r => r.1 ++ r.2)).join ++ fin = u ++ (q.1 ++ v) := by
  induction ps with
  | nil => cases hq
  | cons p rest ih =>
    rcases List.mem_cons.mp hq with rfl | hmem
    · exact ⟨[], q.2 ++ ((rest.map (fun r => r.1 ++ r.2)).join ++ fin),
        by simp [List.append_assoc]⟩
    · obtain ⟨u, v, huv⟩ := ih hmem
      refine ⟨(p.1 ++ p.2) ++ u, v, ?_⟩
      simp only [List.map_cons, List.join_cons, List.append_assoc]
      rw [huv]

theorem docDecomp_frag_noC (flag : Bool) (page : List Char)
    (hpage : containsSub page placeholderCore = false) :
    ∀ q ∈ (docDecomp flag (splitNl page)).1,
      containsSub q.1 placeholderCore = false := by
  intro q hq
  cases hb : containsSub q.1 placeholderCore with
  | false => rfl
  | true =>
    exfalso
    have hpart := mem_decomp_frag_part (docDecomp flag (splitNl page)).1
      (docDecomp flag (splitNl page)).2 q hq
    rw [docDecomp_recompose, joinNl_splitNl] at hpart
    have := containsSub_part page q.1 placeholderCore hpart hb
    rw [hpage] at this
    exact Bool.noConfusion this

/-- CLAIM C10 amended: for every document that contains no occurrence of
the placeholder core "PLACEHOLDER_TO_BE_REPLACED_WITH_CHECKBOX" (hence in
particular not the placeholder literal itself), batch identifiers that
avoid it likewise, and one identifier per recorded span, bulk conversion
changes only the recorded spans: the document decomposes into the
alternating gap/token decomposition produced by the recording scan
(first conjunct), the decomposition has exactly one token per recorded
span (second conjunct), and the conversion result keeps every gap
byte for byte and replaces the k-th token by the rendered unchecked
control carrying the k-th batch identifier (third conjunct). -/
theorem convertCheckboxes_frame (page : List Char) (flag : Bool)
    (ids : List (List Char))
    (hpage : containsSub page placeholderCore = false)
    (hids : ∀ id ∈ ids, containsSub id placeholderCore = false)
    (hlen : ids.length = (getCheckboxesToConvert page flag).length)
    (hne : getCheckboxesToConvert page flag ≠ []) :
    page = ((docDecomp flag (splitNl page)).1.map (fun q => q.1 ++ q.2)).join ++
      (docDecomp flag (splitNl page)).2 ∧
    (docDecomp flag (splitNl page)).1.length =
      (getCheckboxesToConvert page flag).length ∧
    convertCheckboxes page flag ids =
      (List.zipWith (fun q id => q.1 ++ ctrlPat false id)
        (docDecomp flag (splitNl page)).1 ids).join ++
        (docDecomp flag (splitNl page)).2 := by
  have hrecomp : ((docDecomp flag (splitNl page)).1.map
      (fun q => q.1 ++ q.2)).join ++ (docDecomp flag (splitNl page)).2 = page := by
    rw [docDecomp_recompose]
    exact joinNl_splitNl page
  have hcount : (docDecomp flag (splitNl page)).1.length =
      (getCheckboxesToConvert page flag).length :=
    docDecomp_length flag (splitNl page) 0
  refine ⟨hrecomp.symm, hcount, ?_⟩
  unfold convertCheckboxes
  rw [docDecomp_phase1 flag (splitNl page)]
  have hsteps := convertPhase2_steps (docDecomp flag (splitNl page)).1 ids []
    (docDecomp flag (splitNl page)).2
    (by omega)
    (by intro q hq; cases hq)
    (docDecomp_frag_noC flag page hpage)
    hids
  simpa using hsteps

/-- CLAIM C10 counterexample document: it does not contain the full
placeholder literal, but it ends in text that concatenates with the
substituted placeholder to form an earlier occurrence of the literal. -/
def clashPage : List Char :=
  str "| !!PLACEHOLDER_TO_BE_REPLACED_WITH_CHECKBOX- [ ]"

/-- CLAIM C10 counterexample: the document contains no occurrence of the
placeholder literal and has exactly one recorded span, the trailing
checkbox token, yet bulk conversion does not equal the direct
substitution the claim requires (prefix kept byte for byte, token
replaced by the rendered control): the placeholder substitution fires on
an occurrence formed jointly by document text and the inserted
placeholder, mangling the prefix. -/
theorem convertCheckboxes_placeholder_clash :
    containsSub clashPage placeholderP = false ∧
    getCheckboxesToConvert clashPage false ≠ [] ∧
    (getCheckboxesToConvert clashPage false).length = 1 ∧
    convertCheckboxes clashPage false [str "aaaaaa"] ≠
      str "| !!PLACEHOLDER_TO_BE_REPLACED_WITH_CHECKBOX" ++
        ctrlPat false (str "aaaaaa") := by decide

/-- CLAIM C10 witness: the amended frame theorem applied to the document
"| - [ ]" with one identifier. -/
theorem convertCheckboxes_frame_witness :
    str "| - [ ]" =
      ((docDecomp false (splitNl (str "| - [ ]"))).1.map
        (fun q => q.1 ++ q.2)).join ++
        (docDecomp false (splitNl (str "| - [ ]"))).2 ∧
    (docDecomp false (splitNl (str "| - [ ]"))).1.length =
      (getCheckboxesToConvert (str "| - [ ]") false).length ∧
    convertCheckboxes (str "| - [ ]") false [str "abc123"] =
      (List.zipWith (fun q id => q.1 ++ ctrlPat false id)
        (docDecomp false (splitNl (str "| - [ ]"))).1 [str "abc123"]).join ++
        (docDecomp false (splitNl (str "| - [ ]"))).2 :=
  convertCheckboxes_frame (str "| - [ ]") false [str "abc123"]
    (by decide) (by decide) (by decide) (by decide)
